import Mathlib

/-!
Verification of the changeset-to-git-raw transcoder in the skara Mercurial
extension (`vcs/src/main/resources/ext.py`).

Conventions of the embedding:
* Python `bytes` values (paths, file contents, flags, emitted output) are
  `List Nat` of byte values.
* Python `set` values of paths are `Finset (List Nat)`; `sorted(...)` is
  `Finset.sort (· ≤ ·)` under the lexicographic order on lists.
* Mercurial repository accessors (`ctx.filectx`, `copies.pathcopies`,
  `patch.diff` emptiness) are external collaborators and appear as explicit
  function-valued inputs.
* Python floats are modelled as exact rationals `ℚ`; `int(...)` on the
  (provably nonnegative) score is `Int.floor`.
* Revision numbers and byte lengths are naturals.
-/

namespace Skara

/-- Byte strings (Python `bytes`): lists of byte values. -/
abbrev Bytes := List Nat

/-! ### Similarity scorer: `ext.py` `ratio` on top of `difflib.SequenceMatcher` -/

/-- Length of the longest common prefix of two byte strings. -/
def lcp : Bytes → Bytes → Nat
  | a :: as, b :: bs => if a = b then lcp as bs + 1 else 0
  | _, _ => 0

/-- Model of `difflib.SequenceMatcher.find_longest_match` over the whole inputs (no junk:
the inputs relevant here are shorter than the autojunk limit and no junk
predicate is passed).  Scans start positions `i` then `j` in ascending order and
keeps the first strictly longest block, which is exactly difflib's tie-break
(longest block, then lowest start in `a`, then lowest start in `b`).  Returns
`(i, j, k)`: a block of length `k` with `a.drop i` and `b.drop j` agreeing on
their first `k` elements, `k = 0` when the strings share no element. -/
def find_longest_match (a b : Bytes) : Nat × Nat × Nat :=
  (List.range a.length).foldl (fun best i =>
    (List.range b.length).foldl (fun best j =>
      if best.2.2 < lcp (a.drop i) (b.drop j) then (i, j, lcp (a.drop i) (b.drop j))
      else best) best) (0, 0, 0)

/-- Total size of the matching blocks of `difflib.SequenceMatcher
.get_matching_blocks`: recursively take the longest match and recurse on the
pieces to its left and to its right.  Structural fuel makes the recursion
kernel-computable; `a.length + b.length` fuel always suffices because each
recursive call strictly shrinks the combined length. -/
def matching_total_fuel : Nat → Bytes → Bytes → Nat
  | 0, _, _ => 0
  | fuel + 1, a, b =>
    if (find_longest_match a b).2.2 = 0 then 0
    else
      matching_total_fuel fuel (a.take (find_longest_match a b).1)
          (b.take (find_longest_match a b).2.1) +
        (find_longest_match a b).2.2 +
        matching_total_fuel fuel
          (a.drop ((find_longest_match a b).1 + (find_longest_match a b).2.2))
          (b.drop ((find_longest_match a b).2.1 + (find_longest_match a b).2.2))

/-- Total number of matched elements between `a` and `b` in the
Ratcliff/Obershelp decomposition used by `difflib.SequenceMatcher.ratio`. -/
def matching_total (a b : Bytes) : Nat := matching_total_fuel (a.length + b.length) a b

/-- Model of `difflib._calculate_ratio`: `2 * matches / length`, and `1.0` when the
combined length is zero. -/
def calculate_ratio (m len : Nat) : ℚ :=
  if len ≠ 0 then 2 * (m : ℚ) / (len : ℚ) else 1

/-- Model of `difflib.SequenceMatcher.real_quick_ratio`: upper bound from lengths only. -/
def real_quick_ratio (a b : Bytes) : ℚ :=
  calculate_ratio (min a.length b.length) (a.length + b.length)

/-- Number of multiset-matching elements counted by
`difflib.SequenceMatcher.quick_ratio`: for each distinct element, the smaller of
its two occurrence counts. -/
def quick_matches (a b : Bytes) : Nat :=
  (a.dedup.map (fun x => min (a.count x) (b.count x))).sum

/-- Model of `difflib.SequenceMatcher.quick_ratio`: upper bound from element counts. -/
def quick_ratio (a b : Bytes) : ℚ :=
  calculate_ratio (quick_matches a b) (a.length + b.length)

/-- Model of `difflib.SequenceMatcher.ratio`: twice the total matched size over the total
length. -/
def sequence_ratio (a b : Bytes) : ℚ :=
  calculate_ratio (matching_total a b) (a.length + b.length)

/-- Embedding of `ext.py` `ratio(a, b, threshold)`: two successively tighter cheap bound
checks, then the exact ratio, each short-circuiting to `0` below `threshold`. -/
def ratio (a b : Bytes) (threshold : ℚ) : ℚ :=
  if real_quick_ratio a b < threshold then 0
  else if quick_ratio a b < threshold then 0
  else
    let r := sequence_ratio a b
    if r < threshold then 0 else r

/-! ### File modes and file contexts -/

/-- Embedding of `ext.py` `mode(fctx)` on the file's flags: `b'' ↦ b'100644'`,
`b'x' ↦ b'100755'`, `b'l' ↦ b'120000'`; any other flags value falls through and
the Python function returns `None`. -/
def mode (flags : Bytes) : Option Bytes :=
  if flags = [] then some [49, 48, 48, 54, 52, 52]
  else if flags = [120] then some [49, 48, 48, 55, 53, 53]
  else if flags = [108] then some [49, 50, 48, 48, 48, 48]
  else none

/-- What the emitter reads from a Mercurial file context: its flags, its
content, its rename provenance (`fctx.renamed()` yielding the old path), and
the flags and content of its first parent file context (`fctx.p1()`, consulted
only in the rename branch). -/
structure FileCtx where
  flags : Bytes
  data : Bytes
  renamedFrom : Option Bytes
  p1flags : Bytes
  p1data : Bytes
deriving DecidableEq

/-- Input of `_diff_git_raw`: the two changeset contexts as path-indexed file
contexts, the `mercurial.copies.pathcopies(ctx1, ctx2)` mapping, and the
modified/added/removed path sets. -/
structure DiffInput where
  ctx1 : Bytes → FileCtx
  ctx2 : Bytes → FileCtx
  copied : Bytes → Option Bytes
  modified : Finset Bytes
  added : Finset Bytes
  removed : Finset Bytes

/-! ### Raw-diff emitter: `_diff_git_raw` -/

/-- The rename/copy source that an added path consumes, if any: its rename
provenance when present, else its `pathcopies` source, in either case only when
that source is in the removed set (first loop of `_diff_git_raw`). -/
def consumed_source (I : DiffInput) (path : Bytes) : Option Bytes :=
  match (I.ctx2 path).renamedFrom with
  | some old_path => if old_path ∈ I.removed then some old_path else none
  | none =>
    match I.copied path with
    | some old_path => if old_path ∈ I.removed then some old_path else none
    | none => none

/-- Value of `removed_copy` after the first loop of `_diff_git_raw`: the removed paths
minus every source consumed by some added path (discards only, so the loop
order over the added set is irrelevant). -/
def removed_copy (I : DiffInput) : Finset Bytes :=
  I.removed.filter (fun old_path => ∀ p ∈ I.added, consumed_source I p ≠ some old_path)

/-- Raw-diff operation letter for a rename/copy index line. -/
inductive Op
  | R
  | C
deriving DecidableEq

/-- Byte of the operation letter. -/
def Op.byte : Op → Nat
  | Op.R => 82
  | Op.C => 67

/-- One git-raw index line, holding exactly the variable fields that
`_diff_git_raw` interpolates into the emitted bytes (see `render_line`).  Mode
fields are `Option Bytes` because `mode` is partial. -/
inductive Line
  | modified (oldMode newMode : Option Bytes) (path : Bytes)
  | renamedCopied (op : Op) (oldMode newMode : Option Bytes) (score : ℤ)
      (oldPath newPath : Bytes)
  | added (newMode : Option Bytes) (path : Bytes)
  | removed (oldMode : Option Bytes) (path : Bytes)
deriving DecidableEq

/-- The index line `_diff_git_raw` emits for one path of
`modified ∪ added ∪ removed_copy` (the body of its second loop).  The rename
branch scores with `int(ratio(parent.data(), fctx.data(), 0.5) * 100)` (the
argument is nonnegative, so Python's truncating `int` is the floor); the copy
branch uses the fixed score `100` and writes `mode(fctx)` for both mode
columns. -/
def emit_line (I : DiffInput) (path : Bytes) : Line :=
  if path ∈ I.modified then
    Line.modified (mode (I.ctx1 path).flags) (mode (I.ctx2 path).flags) path
  else if path ∈ I.added then
    let fctx := I.ctx2 path
    match fctx.renamedFrom with
    | some old_path =>
      Line.renamedCopied (if old_path ∈ I.removed then Op.R else Op.C)
        (mode fctx.p1flags) (mode fctx.flags)
        ⌊ratio fctx.p1data fctx.data (1 / 2) * 100⌋ old_path path
    | none =>
      match I.copied path with
      | some old_path =>
        Line.renamedCopied (if old_path ∈ I.removed then Op.R else Op.C)
          (mode fctx.flags) (mode fctx.flags) 100 old_path path
      | none => Line.added (mode fctx.flags) path
  else
    Line.removed (mode (I.ctx1 path).flags) path

/-- The index lines of `_diff_git_raw`: one line per path of
`sorted(modified | added | removed_copy)`. -/
def diff_git_raw_lines (I : DiffInput) : List Line :=
  ((I.modified ∪ I.added ∪ removed_copy I).sort (· ≤ ·)).map (emit_line I)

/-- The path under which a line is iterated by `_diff_git_raw`'s sorted loop
(the destination path for a rename/copy line). -/
def line_key : Line → Bytes
  | Line.modified _ _ p => p
  | Line.renamedCopied _ _ _ _ _ newPath => newPath
  | Line.added _ p => p
  | Line.removed _ p => p

/-- The all-zero placeholder hash `b'0' * 40`. -/
def nullHash : Bytes := List.replicate 40 48

/-- Python `str(i).encode('ascii')` for a natural number. -/
def nat_to_str (n : Nat) : Bytes :=
  if n = 0 then [48] else (Nat.digits 10 n).reverse.map (fun d => d + 48)

/-- Embedding of `ext.py` `int_to_str`: decimal representation of an integer. -/
def int_to_str (i : ℤ) : Bytes :=
  if i < 0 then 45 :: nat_to_str i.natAbs else nat_to_str i.toNat

/-- The bytes a `Line` produces on stdout, `none` when a `mode` call returned
`None` (in Python, concatenating `None` raises and nothing is written). -/
def render_line : Line → Option Bytes
  | Line.modified om nm p => do
    let m1 ← om
    let m2 ← nm
    pure ([58] ++ m1 ++ [32] ++ m2 ++ [32] ++ nullHash ++ [32] ++ nullHash ++
      [32, 77, 9] ++ p ++ [10])
  | Line.renamedCopied op om nm score oldPath newPath => do
    let m1 ← om
    let m2 ← nm
    pure ([58] ++ m1 ++ [32] ++ m2 ++ [32] ++ nullHash ++ [32] ++ nullHash ++
      [32] ++ [op.byte] ++ int_to_str score ++ [9] ++ oldPath ++ [9] ++ newPath ++ [10])
  | Line.added nm p => do
    let m ← nm
    pure ([58, 48, 48, 48, 48, 48, 48, 32] ++ m ++ [32] ++ nullHash ++ [32] ++
      nullHash ++ [32, 65, 9] ++ p ++ [10])
  | Line.removed om p => do
    let m ← om
    pure ([58] ++ m ++ [32, 48, 48, 48, 48, 48, 48, 32] ++ nullHash ++ [32] ++
      nullHash ++ [32, 68, 9] ++ p ++ [10])

/-! ### Merge reconciler: `really_differs` and the merge branch of `log_git` -/

/-- Embedding of `ext.py` `really_differs(repo, p1, p2, ctx, files)`: keep a path only when
its content diff against `p1` and its content diff against `p2` are both
non-empty.  `d1 path` (resp. `d2`) abstracts
`len(list(mercurial.patch.diff(repo, p1.node(), ctx.node(), ...))) > 0`. -/
def really_differs (d1 d2 : Bytes → Bool) (files : Finset Bytes) : Finset Bytes :=
  files.filter (fun path => d1 path = true ∧ d2 path = true)

/-- The six per-parent status sets computed by `log_git` for a two-parent
changeset. -/
structure MergeStatus where
  modified_p1 : Finset Bytes
  added_p1 : Finset Bytes
  removed_p1 : Finset Bytes
  modified_p2 : Finset Bytes
  added_p2 : Finset Bytes
  removed_p2 : Finset Bytes

/-- The five sets the merge branch of `log_git` feeds to the two
`_diff_git_raw` invocations. -/
structure MergeOutput where
  combined_modified_p1 : Finset Bytes
  combined_added_p1 : Finset Bytes
  combined_modified_p2 : Finset Bytes
  combined_added_p2 : Finset Bytes
  removed_both : Finset Bytes

/-- The merge branch of `log_git`: intersect the per-parent sets, build the
four combined candidate sets, and filter each through `really_differs`. -/
def log_git_merge (s : MergeStatus) (d1 d2 : Bytes → Bool) : MergeOutput :=
  let added_both := s.added_p1 ∩ s.added_p2
  let modified_both := s.modified_p1 ∩ s.modified_p2
  let removed_both := s.removed_p1 ∩ s.removed_p2
  let combined_modified_p1 := modified_both ∪ (s.modified_p1 ∩ s.added_p2)
  let combined_added_p1 := added_both ∪ (s.added_p1 ∩ s.modified_p2)
  let combined_modified_p2 := modified_both ∪ (s.modified_p2 ∩ s.added_p1)
  let combined_added_p2 := added_both ∪ (s.added_p2 ∩ s.modified_p1)
  { combined_modified_p1 := really_differs d1 d2 combined_modified_p1
    combined_added_p1 := really_differs d1 d2 combined_added_p1
    combined_modified_p2 := really_differs d1 d2 combined_modified_p2
    combined_added_p2 := really_differs d1 d2 combined_added_p2
    removed_both := removed_both }

/-! ### Metadata and bulk-dump serializer: `__dump_metadata` and `__dump` -/

/-- Embedding of `ext.py` `write`: append the bytes to the output stream. -/
def write (s : Bytes) : Bytes := s

/-- Embedding of `ext.py` `writeln`: the bytes followed by a newline. -/
def writeln (s : Bytes) : Bytes := s ++ [10]

/-- Python `b' '.join(...)` over a list of byte strings. -/
def join_space (parts : List Bytes) : Bytes := List.intercalate [32] parts

/-- The record delimiter `b'#@!_-=&'`. -/
def delim : Bytes := [35, 64, 33, 95, 45, 61, 38]

/-- The changeset metadata `__dump_metadata` reads from a changeset context.
Revision numbers are modelled as naturals. -/
structure CommitMeta where
  hexId : Bytes
  rev : Nat
  branch : Bytes
  parentHexes : List Bytes
  parentRevs : List Nat
  user : Bytes
  date : Bytes
  description : Bytes

/-- The metadata record of `__dump_metadata` up to (and excluding) the
description length line. -/
def metadata_header (c : CommitMeta) : Bytes :=
  writeln delim ++ writeln c.hexId ++ writeln (nat_to_str c.rev) ++
    writeln c.branch ++ writeln (join_space c.parentHexes) ++
    writeln (join_space (c.parentRevs.map nat_to_str)) ++ writeln c.user ++
    writeln c.date

/-- Embedding of `ext.py` `__dump_metadata`: delimiter, hex id, revision, branch, parents,
author, date, then the declared description byte length followed immediately by
exactly the description bytes (no trailing newline). -/
def dump_metadata (c : CommitMeta) : Bytes :=
  metadata_header c ++ writeln (nat_to_str c.description.length) ++
    write c.description

/-- One added-or-modified file of a bulk-dump record: its path, flags and
content, as read through `ctx.filectx(filename)` in `__dump`. -/
structure DumpFile where
  filename : Bytes
  flags : Bytes
  content : Bytes

/-- The per-file block of `__dump`: the path, the space-joined flag characters,
then the declared content byte length followed immediately by exactly the
content bytes. -/
def dump_file_entry (f : DumpFile) : Bytes :=
  writeln f.filename ++ writeln (join_space (f.flags.map (fun c => [c]))) ++
    writeln (nat_to_str f.content.length) ++ write f.content

/-- The path-and-flags head of `dump_file_entry`, before the length line. -/
def file_entry_header (f : DumpFile) : Bytes :=
  writeln f.filename ++ writeln (join_space (f.flags.map (fun c => [c])))

/-- The status of one changeset as `__dump` receives it from `repo.status`:
three plain lists (not sets), each file of the modified and added lists looked
up to a `DumpFile`. -/
structure DumpChangeset where
  meta : CommitMeta
  modified : List DumpFile
  added : List DumpFile
  removed : List Bytes

/-- One record of `ext.py` `__dump`: the metadata record, the three counts in
the order modified, added, removed, then one `for` loop over `added + modified`
emitting the file blocks, then one `for` loop over `removed` emitting the bare
paths. -/
def dump_record (c : DumpChangeset) : Bytes :=
  dump_metadata c.meta ++
    writeln (nat_to_str c.modified.length) ++
    writeln (nat_to_str c.added.length) ++
    writeln (nat_to_str c.removed.length) ++
    (c.added ++ c.modified).foldl (fun out f => out ++ dump_file_entry f) [] ++
    c.removed.foldl (fun out p => out ++ writeln p) []

/-- A length-prefixed payload: the declared decimal byte length on its own
line, then exactly that many raw bytes. -/
def length_prefixed (s : Bytes) : Bytes := writeln (nat_to_str s.length) ++ write s

/-- Decode a big-endian list of ASCII digits. -/
def read_decimal (ds : Bytes) : Nat := ds.foldl (fun acc d => acc * 10 + (d - 48)) 0

/-- Streaming-consumer read of one length-prefixed payload: read the decimal
digits up to the first newline, then exactly that many raw bytes; the remainder
of the stream is returned untouched. -/
def read_length_prefixed (s : Bytes) : Option (Bytes × Bytes) :=
  match s.dropWhile (fun b => b ≠ 10) with
  | 10 :: tail =>
    let n := read_decimal (s.takeWhile (fun b => b ≠ 10))
    if n ≤ tail.length then some (tail.take n, tail.drop n) else none
  | _ => none

/-! ### Concrete inputs used to instantiate and refute the claims -/

/-- A plain regular file with empty content and no provenance. -/
def fcDefault : FileCtx := ⟨[], [], none, [], []⟩

/-- A changeset with one added path `[98]` renamed from `[97]`, whose old and
new contents share no byte, so the similarity check fails and the score is 0. -/
def cI2 : DiffInput where
  ctx1 := fun _ => fcDefault
  ctx2 := fun _ =>
    { flags := [], data := [5, 6, 7, 8], renamedFrom := some [97],
      p1flags := [], p1data := [1, 2, 3, 4] }
  copied := fun _ => none
  modified := ∅
  added := {[98]}
  removed := ∅

/-- A changeset with one modified path, one added path renamed from the one
removed path (so the removed path is consumed). -/
def cI4 : DiffInput where
  ctx1 := fun _ => fcDefault
  ctx2 := fun _ =>
    { flags := [], data := [], renamedFrom := some [3], p1flags := [], p1data := [] }
  copied := fun _ => none
  modified := {[1]}
  added := {[2]}
  removed := {[3]}

/-- A changeset with one added path `[98]` carrying copy provenance from
`[97]`, where the old path is executable in the base changeset while the new
path is a regular file. -/
def cI6 : DiffInput where
  ctx1 := fun _ => { fcDefault with flags := [120] }
  ctx2 := fun _ => fcDefault
  copied := fun p => if p = [98] then some [97] else none
  modified := ∅
  added := {[98]}
  removed := ∅

/-- A changeset with a single plainly added regular file. -/
def cI9 : DiffInput where
  ctx1 := fun _ => fcDefault
  ctx2 := fun _ => fcDefault
  copied := fun _ => none
  modified := ∅
  added := {[97]}
  removed := ∅

/-- Merge status of a merge commit whose path `[120]` is reported Modified
against the first parent and Added against the second parent. -/
def csM : MergeStatus where
  modified_p1 := {[120]}
  added_p1 := ∅
  removed_p1 := ∅
  modified_p2 := ∅
  added_p2 := {[120]}
  removed_p2 := ∅

/-- The three flags values on which `mode` is defined. -/
def good_flags (fl : Bytes) : Prop := fl = [] ∨ fl = [120] ∨ fl = [108]

/-! ### Lemmas about the similarity scorer -/

theorem lcp_le_left (a b : Bytes) : lcp a b ≤ a.length := by
  induction a generalizing b with
  | nil => simp [lcp]
  | cons x xs ih =>
    cases b with
    | nil => simp [lcp]
    | cons y ys =>
      by_cases h : x = y <;> simp [lcp, h]
      exact ih ys

theorem lcp_le_right (a b : Bytes) : lcp a b ≤ b.length := by
  induction a generalizing b with
  | nil => simp [lcp]
  | cons x xs ih =>
    cases b with
    | nil => simp [lcp]
    | cons y ys =>
      by_cases h : x = y <;> simp [lcp, h]
      exact ih ys

theorem find_longest_match_spec (a b : Bytes) :
    (find_longest_match a b).2.2 ≠ 0 →
      (find_longest_match a b).1 < a.length ∧ (find_longest_match a b).2.1 < b.length ∧
        (find_longest_match a b).2.2 =
          lcp (a.drop (find_longest_match a b).1) (b.drop (find_longest_match a b).2.1) := by
  unfold find_longest_match
  refine List.foldlRecOn (motive := fun (best : Nat × Nat × Nat) =>
    best.2.2 ≠ 0 → best.1 < a.length ∧ best.2.1 < b.length ∧
      best.2.2 = lcp (a.drop best.1) (b.drop best.2.1)) _ _ _ (fun h => absurd rfl h) ?_
  intro best hbest i hi
  refine List.foldlRecOn (motive := fun (best : Nat × Nat × Nat) =>
    best.2.2 ≠ 0 → best.1 < a.length ∧ best.2.1 < b.length ∧
      best.2.2 = lcp (a.drop best.1) (b.drop best.2.1)) _ _ _ hbest ?_
  intro best' hbest' j hj
  dsimp only
  split
  · exact fun _ => ⟨List.mem_range.1 hi, List.mem_range.1 hj, rfl⟩
  · exact hbest'

theorem matching_total_fuel_le (fuel : Nat) :
    ∀ a b : Bytes, matching_total_fuel fuel a b ≤ min a.length b.length := by
  induction fuel with
  | zero => intro a b; simp [matching_total_fuel]
  | succ n ih =>
    intro a b
    rw [matching_total_fuel]
    split
    · exact Nat.zero_le _
    · rename_i hk0
      obtain ⟨hi, hj, hk⟩ := find_longest_match_spec a b hk0
      have hka : (find_longest_match a b).2.2 ≤
          a.length - (find_longest_match a b).1 := by
        rw [hk]
        exact (lcp_le_left _ _).trans (by rw [List.length_drop])
      have hkb : (find_longest_match a b).2.2 ≤
          b.length - (find_longest_match a b).2.1 := by
        rw [hk]
        exact (lcp_le_right _ _).trans (by rw [List.length_drop])
      have h1 := ih (a.take (find_longest_match a b).1) (b.take (find_longest_match a b).2.1)
      have h2 := ih (a.drop ((find_longest_match a b).1 + (find_longest_match a b).2.2))
        (b.drop ((find_longest_match a b).2.1 + (find_longest_match a b).2.2))
      rw [List.length_take, List.length_take] at h1
      rw [List.length_drop, List.length_drop] at h2
      omega

theorem matching_total_le (a b : Bytes) :
    matching_total a b ≤ min a.length b.length :=
  matching_total_fuel_le _ a b

theorem calculate_ratio_nonneg (m len : Nat) : 0 ≤ calculate_ratio m len := by
  unfold calculate_ratio
  split
  · positivity
  · norm_num

theorem calculate_ratio_le_one (m len : Nat) (h : 2 * m ≤ len) :
    calculate_ratio m len ≤ 1 := by
  unfold calculate_ratio
  split
  · rename_i hlen
    rw [div_le_one (by exact_mod_cast Nat.pos_of_ne_zero hlen)]
    exact_mod_cast h
  · exact le_refl 1

theorem sequence_ratio_nonneg (a b : Bytes) : 0 ≤ sequence_ratio a b :=
  calculate_ratio_nonneg _ _

theorem sequence_ratio_le_one (a b : Bytes) : sequence_ratio a b ≤ 1 := by
  refine calculate_ratio_le_one _ _ ?_
  have := matching_total_le a b
  omega

theorem quick_ratio_nonneg (a b : Bytes) : 0 ≤ quick_ratio a b :=
  calculate_ratio_nonneg _ _

theorem real_quick_ratio_nonneg (a b : Bytes) : 0 ≤ real_quick_ratio a b :=
  calculate_ratio_nonneg _ _

theorem ratio_eq (a b : Bytes) (t : ℚ) :
    ratio a b t =
      if real_quick_ratio a b < t ∨ quick_ratio a b < t ∨ sequence_ratio a b < t then 0
      else sequence_ratio a b := by
  unfold ratio
  dsimp only
  split_ifs <;> tauto

theorem ratio_nonneg (a b : Bytes) (t : ℚ) : 0 ≤ ratio a b t := by
  rw [ratio_eq]
  split
  · exact le_refl 0
  · exact sequence_ratio_nonneg a b

theorem ratio_le_one (a b : Bytes) (t : ℚ) : ratio a b t ≤ 1 := by
  rw [ratio_eq]
  split
  · norm_num
  · exact sequence_ratio_le_one a b

theorem ratio_eq_zero_or_threshold_le (a b : Bytes) (t : ℚ) :
    ratio a b t = 0 ∨ t ≤ ratio a b t := by
  rw [ratio_eq]
  split
  · exact Or.inl rfl
  · rename_i h
    push_neg at h
    exact Or.inr h.2.2

theorem real_quick_ratio_comm (a b : Bytes) :
    real_quick_ratio a b = real_quick_ratio b a := by
  unfold real_quick_ratio
  rw [min_comm, Nat.add_comm]

theorem quick_matches_eq_sum (a b : Bytes) :
    quick_matches a b = ∑ x ∈ a.toFinset, min (a.count x) (b.count x) := by
  unfold quick_matches
  have hd : a.dedup.toFinset = a.toFinset := List.toFinset.ext fun x => List.mem_dedup
  rw [← hd, List.sum_toFinset _ (List.nodup_dedup a)]

theorem quick_matches_comm (a b : Bytes) : quick_matches a b = quick_matches b a := by
  rw [quick_matches_eq_sum, quick_matches_eq_sum]
  have ha : ∑ x ∈ a.toFinset, min (a.count x) (b.count x)
      = ∑ x ∈ a.toFinset ∪ b.toFinset, min (a.count x) (b.count x) :=
    Finset.sum_subset Finset.subset_union_left (by
      intro x _ hxa
      have h0 : a.count x = 0 := List.count_eq_zero.2 fun hm => hxa (List.mem_toFinset.2 hm)
      simp [h0])
  have hb : ∑ x ∈ b.toFinset, min (b.count x) (a.count x)
      = ∑ x ∈ a.toFinset ∪ b.toFinset, min (b.count x) (a.count x) := by
    rw [Finset.union_comm]
    exact Finset.sum_subset Finset.subset_union_left (by
      intro x _ hxb
      have h0 : b.count x = 0 := List.count_eq_zero.2 fun hm => hxb (List.mem_toFinset.2 hm)
      simp [h0])
  rw [ha, hb]
  exact Finset.sum_congr rfl fun x _ => min_comm _ _

theorem quick_ratio_comm (a b : Bytes) : quick_ratio a b = quick_ratio b a := by
  unfold quick_ratio
  rw [quick_matches_comm, Nat.add_comm]

/-! ### Lemmas about the raw-diff emitter -/

theorem line_key_emit_line (I : DiffInput) (p : Bytes) : line_key (emit_line I p) = p := by
  unfold emit_line
  by_cases h1 : p ∈ I.modified
  · simp [h1, line_key]
  · by_cases h2 : p ∈ I.added
    · cases hr : (I.ctx2 p).renamedFrom with
      | some old_path => simp [h1, h2, hr, line_key]
      | none =>
        cases hc : I.copied p with
        | some old_path => simp [h1, h2, hr, hc, line_key]
        | none => simp [h1, h2, hr, hc, line_key]
    · simp [h1, h2, line_key]

theorem mem_diff_git_raw_lines (I : DiffInput) (p : Bytes)
    (hp : p ∈ I.modified ∪ I.added ∪ removed_copy I) :
    emit_line I p ∈ diff_git_raw_lines I := by
  unfold diff_git_raw_lines
  exact List.mem_map_of_mem _ ((Finset.mem_sort _).2 hp)

theorem diff_git_raw_lines_inv (I : DiffInput) (l : Line) (hl : l ∈ diff_git_raw_lines I) :
    ∃ p ∈ I.modified ∪ I.added ∪ removed_copy I, emit_line I p = l := by
  unfold diff_git_raw_lines at hl
  obtain ⟨p, hp, hpl⟩ := List.mem_map.1 hl
  exact ⟨p, (Finset.mem_sort _).1 hp, hpl⟩

theorem emit_line_renamedCopied_inv (I : DiffInput) (q : Bytes) (op : Op)
    (om nm : Option Bytes) (sc : ℤ) (oldp newp : Bytes)
    (h : emit_line I q = Line.renamedCopied op om nm sc oldp newp) :
    q ∉ I.modified ∧ q ∈ I.added ∧ newp = q ∧
      (sc = 100 ∨ sc = ⌊ratio (I.ctx2 q).p1data (I.ctx2 q).data (1 / 2) * 100⌋) := by
  unfold emit_line at h
  by_cases h1 : q ∈ I.modified
  · rw [if_pos h1] at h
    exact absurd h (by simp)
  rw [if_neg h1] at h
  by_cases h2 : q ∈ I.added
  · rw [if_pos h2] at h
    refine ⟨h1, h2, ?_⟩
    cases hr : (I.ctx2 q).renamedFrom with
    | some old_path =>
      simp only [hr] at h
      simp only [Line.renamedCopied.injEq] at h
      obtain ⟨-, -, -, hsc, -, hnew⟩ := h
      exact ⟨hnew.symm, Or.inr hsc.symm⟩
    | none =>
      simp only [hr] at h
      cases hc : I.copied q with
      | some old_path =>
        simp only [hc] at h
        simp only [Line.renamedCopied.injEq] at h
        obtain ⟨-, -, -, hsc, -, hnew⟩ := h
        exact ⟨hnew.symm, Or.inl hsc.symm⟩
      | none =>
        simp only [hc] at h
        exact absurd h (by simp)
  · rw [if_neg h2] at h
    exact absurd h (by simp)

/-- Claim C2 (amended): every Renamed or Copied index line emitted by the
raw-diff emitter carries an integer similarity score in `[0, 100]`, and under
the default threshold `0.5` the score of an emitted rename/copy line is either
`0` (the content similarity fell below the threshold; the line is emitted
nevertheless) or at least `50`; a score strictly between `0` and `50` never
occurs. -/
theorem c2_rename_copy_score_bounds (I : DiffInput) (op : Op) (om nm : Option Bytes)
    (sc : ℤ) (oldp newp : Bytes)
    (hl : Line.renamedCopied op om nm sc oldp newp ∈ diff_git_raw_lines I) :
    0 ≤ sc ∧ sc ≤ 100 ∧ (sc = 0 ∨ 50 ≤ sc) := by
  obtain ⟨q, hq, hline⟩ := diff_git_raw_lines_inv I _ hl
  obtain ⟨-, -, -, hsc⟩ := emit_line_renamedCopied_inv I q op om nm sc oldp newp hline
  rcases hsc with h100 | hfloor
  · subst h100
    norm_num
  · subst hfloor
    have hr0 : 0 ≤ ratio (I.ctx2 q).p1data (I.ctx2 q).data (1 / 2) := ratio_nonneg _ _ _
    have hr1 : ratio (I.ctx2 q).p1data (I.ctx2 q).data (1 / 2) ≤ 1 := ratio_le_one _ _ _
    have h100 : (⌊(100 : ℚ)⌋ : ℤ) = 100 := by norm_num
    refine ⟨Int.floor_nonneg.2 (mul_nonneg hr0 (by norm_num)), ?_, ?_⟩
    · calc ⌊ratio (I.ctx2 q).p1data (I.ctx2 q).data (1 / 2) * 100⌋
          ≤ ⌊(100 : ℚ)⌋ := Int.floor_le_floor (by nlinarith)
        _ = 100 := h100
    · rcases ratio_eq_zero_or_threshold_le (I.ctx2 q).p1data (I.ctx2 q).data (1 / 2) with
        h0 | hge
      · left
        rw [h0]
        norm_num
      · right
        rw [Int.le_floor]
        push_cast
        nlinarith

/-- Helper for claim C2: the similarity of the two unrelated contents of `cI2`
is rejected by the quick-ratio bound, so `ratio` returns `0`. -/
theorem cI2_ratio_zero : ratio [1, 2, 3, 4] [5, 6, 7, 8] (1 / 2 : ℚ) = 0 := by
  rw [ratio_eq, if_pos]
  right
  left
  have hq : quick_matches [1, 2, 3, 4] [5, 6, 7, 8] = 0 := by decide
  norm_num [quick_ratio, calculate_ratio, hq]

/-- Helper for claim C2: the raw diff of `cI2` emits a rename/copy line whose
score is `0`. -/
theorem cI2_line_mem :
    Line.renamedCopied Op.C (mode []) (mode []) 0 [97] [98] ∈ diff_git_raw_lines cI2 := by
  have h := mem_diff_git_raw_lines cI2 [98] (by simp [cI2, removed_copy])
  rw [show emit_line cI2 [98] = Line.renamedCopied Op.C (mode []) (mode [])
      ⌊ratio [1, 2, 3, 4] [5, 6, 7, 8] (1 / 2) * 100⌋ [97] [98] from rfl] at h
  rwa [cI2_ratio_zero, show ⌊(0 : ℚ) * 100⌋ = (0 : ℤ) by norm_num] at h

/-- Claim C2 counterexample: the raw-diff emitter emits a Copied line whose
similarity score is `0`, which is below `50`, refuting that a rename/copy line
is only emitted when the score is at least `50`. -/
theorem c2_counterexample :
    Line.renamedCopied Op.C (mode []) (mode []) 0 [97] [98] ∈ diff_git_raw_lines cI2 ∧
      (0 : ℤ) < 50 :=
  ⟨cI2_line_mem, by norm_num⟩

/-- Claim C2 witness: the score bounds instantiated at the concrete emitted
line of `cI2`. -/
theorem c2_witness : 0 ≤ (0 : ℤ) ∧ (0 : ℤ) ≤ 100 ∧ ((0 : ℤ) = 0 ∨ 50 ≤ (0 : ℤ)) :=
  c2_rename_copy_score_bounds cI2 Op.C (mode []) (mode []) 0 [97] [98] cI2_line_mem

/-- Claim C4: for a single-parent changeset with pairwise-disjoint status sets,
the number of raw-diff index lines equals `|Modified| + |Added| + |Removed|`
after rename/copy consolidation; a consumed Removed source path produces no
line at all (in particular no D line); and every Renamed/Copied line is emitted
for exactly one Added destination path. -/
theorem c4_line_count (I : DiffInput)
    (hma : Disjoint I.modified I.added)
    (hmr : Disjoint I.modified I.removed)
    (har : Disjoint I.added I.removed) :
    (diff_git_raw_lines I).length =
        I.modified.card + I.added.card + (removed_copy I).card ∧
      (∀ p ∈ I.removed, p ∉ removed_copy I →
        ∀ l ∈ diff_git_raw_lines I, line_key l ≠ p) ∧
      (∀ (op : Op) (om nm : Option Bytes) (sc : ℤ) (oldp newp : Bytes),
        Line.renamedCopied op om nm sc oldp newp ∈ diff_git_raw_lines I →
        newp ∈ I.added) := by
  have hsub : removed_copy I ⊆ I.removed := Finset.filter_subset _ _
  refine ⟨?_, ?_, ?_⟩
  · have hd : Disjoint (I.modified ∪ I.added) (removed_copy I) :=
      Finset.disjoint_union_left.2 ⟨hmr.mono_right hsub, har.mono_right hsub⟩
    unfold diff_git_raw_lines
    rw [List.length_map, Finset.length_sort,
      Finset.card_union_of_disjoint hd, Finset.card_union_of_disjoint hma]
  · intro p hp hpc l hl hkey
    obtain ⟨q, hq, hql⟩ := diff_git_raw_lines_inv I l hl
    rw [← hql, line_key_emit_line] at hkey
    subst hkey
    rcases Finset.mem_union.1 hq with hq' | hq'
    · rcases Finset.mem_union.1 hq' with hm | ha
      · exact Finset.disjoint_right.1 hmr hp hm
      · exact Finset.disjoint_right.1 har hp ha
    · exact hpc hq'
  · intro op om nm sc oldp newp hl
    obtain ⟨q, hq, hql⟩ := diff_git_raw_lines_inv I _ hl
    obtain ⟨-, hqa, hnew, -⟩ := emit_line_renamedCopied_inv I q op om nm sc oldp newp hql
    rwa [hnew]

/-- Claim C4 witness: the line count instantiated at `cI4`, whose rename
consumes the single removed path. -/
theorem c4_witness : (diff_git_raw_lines cI4).length = 1 + 1 + 0 := by
  have h := (c4_line_count cI4 (Finset.disjoint_left.2 (by decide))
    (Finset.disjoint_left.2 (by decide)) (Finset.disjoint_left.2 (by decide))).1
  rw [h]
  decide

/-- Claim C5: the raw-diff emitter writes its index lines in strictly
ascending lexicographic order of the iterated path, for every input change
set. -/
theorem c5_lines_sorted_by_path (I : DiffInput) :
    List.Sorted (· < ·) ((diff_git_raw_lines I).map line_key) := by
  have hmap : (diff_git_raw_lines I).map line_key =
      (I.modified ∪ I.added ∪ removed_copy I).sort (· ≤ ·) := by
    unfold diff_git_raw_lines
    rw [List.map_map]
    have hfun : line_key ∘ emit_line I = id := funext fun p => line_key_emit_line I p
    rw [hfun, List.map_id]
  rw [hmap]
  exact Finset.sort_sorted_lt _

/-- Claim C6 (amended): for an added path with explicit copy provenance and no
rename provenance, the emitter writes a Copied line (Renamed if the old path is
also removed) with the fixed score `100`, and writes the new path's mode in
both mode columns (`:<new_mode> <new_mode>`); the old path's mode in the base
changeset is never consulted. -/
theorem c6_copy_provenance_line (I : DiffInput) (p old_path : Bytes)
    (hpm : p ∉ I.modified) (hpa : p ∈ I.added)
    (hr : (I.ctx2 p).renamedFrom = none) (hc : I.copied p = some old_path) :
    emit_line I p =
        Line.renamedCopied (if old_path ∈ I.removed then Op.R else Op.C)
          (mode (I.ctx2 p).flags) (mode (I.ctx2 p).flags) 100 old_path p ∧
      emit_line I p ∈ diff_git_raw_lines I := by
  constructor
  · unfold emit_line
    rw [if_neg hpm, if_pos hpa]
    simp only [hr, hc]
  · exact mem_diff_git_raw_lines I p
      (Finset.mem_union_left _ (Finset.mem_union_right _ hpa))

/-- Claim C6 counterexample: in `cI6` the copy source `[97]` is executable
(mode `100755`) in the base changeset, yet the emitted Copied line carries the
new path's regular mode `100644` in its first (old-mode) column, refuting that
the line begins with the old path's mode. -/
theorem c6_counterexample :
    Line.renamedCopied Op.C (some [49, 48, 48, 54, 52, 52]) (some [49, 48, 48, 54, 52, 52])
        100 [97] [98] ∈ diff_git_raw_lines cI6 ∧
      mode (cI6.ctx1 [97]).flags = some [49, 48, 48, 55, 53, 53] ∧
      (some [49, 48, 48, 54, 52, 52] : Option Bytes) ≠ some [49, 48, 48, 55, 53, 53] := by
  refine ⟨?_, rfl, by decide⟩
  have h := mem_diff_git_raw_lines cI6 [98] (by simp [cI6, removed_copy])
  rwa [show emit_line cI6 [98] = Line.renamedCopied Op.C (some [49, 48, 48, 54, 52, 52])
      (some [49, 48, 48, 54, 52, 52]) 100 [97] [98] from rfl] at h

/-- Claim C6 witness: the amended copy-provenance behaviour instantiated at
`cI6`. -/
theorem c6_witness :
    emit_line cI6 [98] =
        Line.renamedCopied (if [97] ∈ cI6.removed then Op.R else Op.C)
          (mode (cI6.ctx2 [98]).flags) (mode (cI6.ctx2 [98]).flags) 100 [97] [98] ∧
      emit_line cI6 [98] ∈ diff_git_raw_lines cI6 :=
  c6_copy_provenance_line cI6 [98] [97] (by decide) (by decide) rfl rfl

theorem mode_isSome_of_good (fl : Bytes) (h : good_flags fl) : (mode fl).isSome := by
  rcases h with h | h | h <;> subst h <;> decide

theorem render_line_isSome_emit (I : DiffInput) (q : Bytes)
    (hgood : ∀ p : Bytes, good_flags (I.ctx1 p).flags ∧ good_flags (I.ctx2 p).flags ∧
      good_flags (I.ctx2 p).p1flags) :
    (render_line (emit_line I q)).isSome := by
  obtain ⟨h1, h2, h3⟩ := hgood q
  obtain ⟨m1, hm1⟩ := Option.isSome_iff_exists.1 (mode_isSome_of_good _ h1)
  obtain ⟨m2, hm2⟩ := Option.isSome_iff_exists.1 (mode_isSome_of_good _ h2)
  obtain ⟨m3, hm3⟩ := Option.isSome_iff_exists.1 (mode_isSome_of_good _ h3)
  unfold emit_line
  by_cases hqm : q ∈ I.modified
  · simp [hqm, render_line, hm1, hm2]
  · by_cases hqa : q ∈ I.added
    · cases hr : (I.ctx2 q).renamedFrom with
      | some old_path => simp [hqm, hqa, hr, render_line, hm2, hm3]
      | none =>
        cases hc : I.copied q with
        | some old_path => simp [hqm, hqa, hr, hc, render_line, hm2]
        | none => simp [hqm, hqa, hr, hc, render_line, hm2]
    · simp [hqm, hqa, render_line, hm1]

/-- Claim C9: the partial `mode` function is defined exactly on the three flag
values empty, `x` and `l` (returning `100644`, `100755`, `120000`), returns no
mode on any other flags value, and under the precondition that every consulted
file context carries one of those three flag values, every emitted index line
renders to actual output bytes (the undefined branch is unreachable). -/
theorem c9_mode_totality :
    (mode [] = some [49, 48, 48, 54, 52, 52] ∧
        mode [120] = some [49, 48, 48, 55, 53, 53] ∧
        mode [108] = some [49, 50, 48, 48, 48, 48]) ∧
      (∀ fl : Bytes, ¬ good_flags fl → mode fl = none) ∧
      (∀ I : DiffInput,
        (∀ p : Bytes, good_flags (I.ctx1 p).flags ∧ good_flags (I.ctx2 p).flags ∧
          good_flags (I.ctx2 p).p1flags) →
        ∀ l ∈ diff_git_raw_lines I, (render_line l).isSome) := by
  refine ⟨⟨rfl, rfl, rfl⟩, ?_, ?_⟩
  · intro fl h
    unfold good_flags at h
    push_neg at h
    obtain ⟨h1, h2, h3⟩ := h
    unfold mode
    rw [if_neg h1, if_neg h2, if_neg h3]
  · intro I hgood l hl
    obtain ⟨q, -, hql⟩ := diff_git_raw_lines_inv I l hl
    rw [← hql]
    exact render_line_isSome_emit I q hgood

/-- Claim C9 witness: the mode precondition instantiated at `cI9`, whose files
are all regular, making the single emitted line render. -/
theorem c9_witness : (render_line (emit_line cI9 [97])).isSome :=
  c9_mode_totality.2.2 cI9 (fun _ => ⟨Or.inl rfl, Or.inl rfl, Or.inl rfl⟩)
    (emit_line cI9 [97])
    (mem_diff_git_raw_lines cI9 [97] (by simp [cI9, removed_copy]))

/-- Claim C1 (amended): in the merge branch of `log_git`, a path of any of the
four combined candidate sets survives only when its content diff against p1
and its content diff against p2 are both non-empty; consequently a path whose
diff against p1 is empty is dropped from the p1-relative output and from the
p2-relative output alike, even when its diff against p2 is non-empty. -/
theorem c1_merge_double_diff (s : MergeStatus) (d1 d2 : Bytes → Bool) (p : Bytes) :
    ((p ∈ (log_git_merge s d1 d2).combined_modified_p1 ∨
        p ∈ (log_git_merge s d1 d2).combined_added_p1 ∨
        p ∈ (log_git_merge s d1 d2).combined_modified_p2 ∨
        p ∈ (log_git_merge s d1 d2).combined_added_p2) →
      d1 p = true ∧ d2 p = true) ∧
    (d1 p = false →
      p ∉ (log_git_merge s d1 d2).combined_modified_p1 ∧
        p ∉ (log_git_merge s d1 d2).combined_added_p1 ∧
        p ∉ (log_git_merge s d1 d2).combined_modified_p2 ∧
        p ∉ (log_git_merge s d1 d2).combined_added_p2) := by
  unfold log_git_merge really_differs
  dsimp only
  constructor
  · rintro (h | h | h | h) <;> exact (Finset.mem_filter.1 h).2
  · intro hd1
    refine ⟨?_, ?_, ?_, ?_⟩ <;> intro hmem <;>
      exact absurd (Finset.mem_filter.1 hmem).2.1 (by simp [hd1])

/-- Claim C1 counterexample: path `[120]` is Modified against p1 and Added
against p2, its diff against p1 is empty while its diff against p2 is
non-empty, and it is dropped from the p2-relative combined added set, refuting
that such a path is retained in the p2-relative output. -/
theorem c1_counterexample :
    ([120] : Bytes) ∈ csM.modified_p1 ∧ ([120] : Bytes) ∈ csM.added_p2 ∧
      (fun _ : Bytes => false) [120] = false ∧ (fun _ : Bytes => true) [120] = true ∧
      ([120] : Bytes) ∉
        (log_git_merge csM (fun _ => false) (fun _ => true)).combined_added_p2 := by
  refine ⟨by decide, by decide, rfl, rfl, ?_⟩
  intro hmem
  unfold log_git_merge really_differs at hmem
  dsimp only at hmem
  exact absurd (Finset.mem_filter.1 hmem).2.1 (by simp)

/-- Claim C1 witness: the empty-diff-against-p1 filter instantiated at the
merge status `csM`. -/
theorem c1_witness :
    ([120] : Bytes) ∉
        (log_git_merge csM (fun _ => false) (fun _ => true)).combined_modified_p1 ∧
      ([120] : Bytes) ∉
        (log_git_merge csM (fun _ => false) (fun _ => true)).combined_added_p1 ∧
      ([120] : Bytes) ∉
        (log_git_merge csM (fun _ => false) (fun _ => true)).combined_modified_p2 ∧
      ([120] : Bytes) ∉
        (log_git_merge csM (fun _ => false) (fun _ => true)).combined_added_p2 :=
  (c1_merge_double_diff csM (fun _ => false) (fun _ => true) [120]).2 rfl

/-- Claim C3 (amended): `ratio(a, b, threshold)` returns `0` whenever one of
the two cheap upper-bound estimates falls below the threshold or the exact
ratio itself falls below the threshold; otherwise it returns the exact
Ratcliff/Obershelp-style ratio, which always lies in `[0, 1]` and equals twice
the total matched size over the total length. -/
theorem c3_ratio_contract (a b : Bytes) (t : ℚ) :
    ratio a b t =
        (if real_quick_ratio a b < t ∨ quick_ratio a b < t ∨ sequence_ratio a b < t
          then 0 else sequence_ratio a b) ∧
      0 ≤ sequence_ratio a b ∧ sequence_ratio a b ≤ 1 ∧
      sequence_ratio a b = calculate_ratio (matching_total a b) (a.length + b.length) :=
  ⟨ratio_eq a b t, sequence_ratio_nonneg a b, sequence_ratio_le_one a b, rfl⟩

/-- Claim C3 counterexample: on `abc` versus `cba` both cheap upper-bound
estimates equal `1` and pass the threshold `1/2`, yet `ratio` returns `0`
rather than the exact ratio `1/3`, refuting that the exact ratio is returned
whenever the cheap bounds pass. -/
theorem c3_counterexample :
    ¬ real_quick_ratio [97, 98, 99] [99, 98, 97] < 1 / 2 ∧
      ¬ quick_ratio [97, 98, 99] [99, 98, 97] < 1 / 2 ∧
      sequence_ratio [97, 98, 99] [99, 98, 97] = 1 / 3 ∧
      ratio [97, 98, 99] [99, 98, 97] (1 / 2) = 0 ∧
      (0 : ℚ) ≠ 1 / 3 := by
  have hm : matching_total [97, 98, 99] [99, 98, 97] = 1 := by decide
  have hq : quick_matches [97, 98, 99] [99, 98, 97] = 3 := by decide
  have h1 : real_quick_ratio [97, 98, 99] [99, 98, 97] = 1 := by
    norm_num [real_quick_ratio, calculate_ratio]
  have h2 : quick_ratio [97, 98, 99] [99, 98, 97] = 1 := by
    norm_num [quick_ratio, calculate_ratio, hq]
  have h3 : sequence_ratio [97, 98, 99] [99, 98, 97] = 1 / 3 := by
    norm_num [sequence_ratio, calculate_ratio, hm]
  refine ⟨by rw [h1]; norm_num, by rw [h2]; norm_num, h3, ?_, by norm_num⟩
  rw [ratio_eq, if_pos]
  rw [h3]
  right
  right
  norm_num

/-- Claim C8 (amended): the two cheap bound estimates are symmetric in their
arguments, and `ratio` is symmetric whenever the Ratcliff/Obershelp matched
totals of the two argument orders agree; the exact-ratio path is not symmetric
in general. -/
theorem c8_ratio_symmetric_of_total_eq (a b : Bytes) (t : ℚ)
    (h : matching_total a b = matching_total b a) :
    real_quick_ratio a b = real_quick_ratio b a ∧
      quick_ratio a b = quick_ratio b a ∧
      ratio a b t = ratio b a t := by
  have hs : sequence_ratio a b = sequence_ratio b a := by
    unfold sequence_ratio
    rw [h, Nat.add_comm]
  refine ⟨real_quick_ratio_comm a b, quick_ratio_comm a b, ?_⟩
  unfold ratio
  rw [real_quick_ratio_comm, quick_ratio_comm, hs]

/-- Claim C8 witness: symmetry instantiated on two inputs whose matched totals
agree. -/
theorem c8_witness : ratio [1, 2] [1, 3] (1 / 2) = ratio [1, 3] [1, 2] (1 / 2) :=
  (c8_ratio_symmetric_of_total_eq [1, 2] [1, 3] (1 / 2) (by decide)).2.2

/-- Claim C8 counterexample: on `ABzCD` versus `z!CD!AB` with threshold `0` no
check short-circuits to `0` in either argument order (every bound and the
exact ratio are nonnegative), yet `ratio` returns `1/3` one way and `1/2` the
other way, refuting symmetry under the exact-ratio path. -/
theorem c8_counterexample :
    ratio [65, 66, 122, 67, 68] [122, 33, 67, 68, 33, 65, 66] 0 = 1 / 3 ∧
      ratio [122, 33, 67, 68, 33, 65, 66] [65, 66, 122, 67, 68] 0 = 1 / 2 ∧
      ¬ real_quick_ratio [65, 66, 122, 67, 68] [122, 33, 67, 68, 33, 65, 66] < 0 ∧
      ¬ quick_ratio [65, 66, 122, 67, 68] [122, 33, 67, 68, 33, 65, 66] < 0 ∧
      ¬ sequence_ratio [65, 66, 122, 67, 68] [122, 33, 67, 68, 33, 65, 66] < 0 ∧
      ¬ real_quick_ratio [122, 33, 67, 68, 33, 65, 66] [65, 66, 122, 67, 68] < 0 ∧
      ¬ quick_ratio [122, 33, 67, 68, 33, 65, 66] [65, 66, 122, 67, 68] < 0 ∧
      ¬ sequence_ratio [122, 33, 67, 68, 33, 65, 66] [65, 66, 122, 67, 68] < 0 ∧
      (1 / 3 : ℚ) ≠ 1 / 2 := by
  have hm1 : matching_total [65, 66, 122, 67, 68] [122, 33, 67, 68, 33, 65, 66] = 2 := by
    set_option maxRecDepth 40000 in decide
  have hm2 : matching_total [122, 33, 67, 68, 33, 65, 66] [65, 66, 122, 67, 68] = 3 := by
    set_option maxRecDepth 40000 in decide
  have hs1 : sequence_ratio [65, 66, 122, 67, 68] [122, 33, 67, 68, 33, 65, 66] = 1 / 3 := by
    norm_num [sequence_ratio, calculate_ratio, hm1]
  have hs2 : sequence_ratio [122, 33, 67, 68, 33, 65, 66] [65, 66, 122, 67, 68] = 1 / 2 := by
    norm_num [sequence_ratio, calculate_ratio, hm2]
  have hpass : ∀ x y : Bytes, ¬ (real_quick_ratio x y < 0 ∨ quick_ratio x y < 0 ∨
      sequence_ratio x y < 0) := by
    intro x y
    simp only [not_or, not_lt]
    exact ⟨real_quick_ratio_nonneg x y, quick_ratio_nonneg x y, sequence_ratio_nonneg x y⟩
  refine ⟨?_, ?_, ?_, ?_, ?_, ?_, ?_, ?_, by norm_num⟩
  · rw [ratio_eq, if_neg (hpass _ _), hs1]
  · rw [ratio_eq, if_neg (hpass _ _), hs2]
  · exact not_lt.2 (real_quick_ratio_nonneg _ _)
  · exact not_lt.2 (quick_ratio_nonneg _ _)
  · exact not_lt.2 (sequence_ratio_nonneg _ _)
  · exact not_lt.2 (real_quick_ratio_nonneg _ _)
  · exact not_lt.2 (quick_ratio_nonneg _ _)
  · exact not_lt.2 (sequence_ratio_nonneg _ _)

/-! ### Lemmas about the length-prefixed framing -/

theorem nat_to_str_ne_10 (n : Nat) : ∀ d ∈ nat_to_str n, d ≠ 10 := by
  intro d hd
  unfold nat_to_str at hd
  split at hd
  · simp only [List.mem_singleton] at hd
    omega
  · obtain ⟨e, -, rfl⟩ := List.mem_map.1 hd
    omega

theorem takeWhile_ne10_append (xs ys : Bytes) (h : ∀ x ∈ xs, x ≠ 10) :
    (xs ++ 10 :: ys).takeWhile (fun b => b ≠ 10) = xs := by
  induction xs with
  | nil => simp
  | cons x xs ih =>
    have hx : x ≠ 10 := h x (List.mem_cons_self x xs)
    simp only [List.cons_append, List.takeWhile_cons]
    simp only [hx, decide_not, ne_eq, decide_eq_true_eq, not_false_iff, Bool.not_false,
      if_true, List.cons.injEq, true_and]
    simpa using ih fun y hy => h y (List.mem_cons_of_mem _ hy)

theorem dropWhile_ne10_append (xs ys : Bytes) (h : ∀ x ∈ xs, x ≠ 10) :
    (xs ++ 10 :: ys).dropWhile (fun b => b ≠ 10) = 10 :: ys := by
  induction xs with
  | nil => simp
  | cons x xs ih =>
    have hx : x ≠ 10 := h x (List.mem_cons_self x xs)
    simp only [List.cons_append, List.dropWhile_cons]
    simp only [hx, decide_not, ne_eq, decide_eq_true_eq, not_false_iff, Bool.not_false,
      if_true]
    simpa using ih fun y hy => h y (List.mem_cons_of_mem _ hy)

theorem foldl_rev_digits (L : List Nat) :
    L.reverse.foldl (fun acc d => acc * 10 + d) 0 = Nat.ofDigits 10 L := by
  rw [List.foldl_reverse]
  induction L with
  | nil => simp [Nat.ofDigits]
  | cons d L ih =>
    simp only [List.foldr_cons, ih, Nat.ofDigits_cons]
    omega

theorem read_decimal_map_add48 (L : List Nat) (acc : Nat) :
    (L.map (fun d => d + 48)).foldl (fun a d => a * 10 + (d - 48)) acc =
      L.foldl (fun a d => a * 10 + d) acc := by
  induction L generalizing acc with
  | nil => rfl
  | cons d L ih =>
    simp only [List.map_cons, List.foldl_cons, Nat.add_sub_cancel]
    exact ih _

theorem read_decimal_nat_to_str (n : Nat) : read_decimal (nat_to_str n) = n := by
  unfold read_decimal nat_to_str
  split
  · rename_i h
    subst h
    rfl
  · rw [read_decimal_map_add48, foldl_rev_digits, Nat.ofDigits_digits]

theorem read_length_prefixed_roundtrip (s rest : Bytes) :
    read_length_prefixed (length_prefixed s ++ rest) = some (s, rest) := by
  unfold length_prefixed writeln write read_length_prefixed
  have harr : nat_to_str s.length ++ [10] ++ s ++ rest =
      nat_to_str s.length ++ 10 :: (s ++ rest) := by
    simp [List.append_assoc]
  rw [harr, takeWhile_ne10_append _ _ (nat_to_str_ne_10 _),
    dropWhile_ne10_append _ _ (nat_to_str_ne_10 _)]
  dsimp only
  rw [read_decimal_nat_to_str,
    if_pos (by rw [List.length_append]; exact Nat.le_add_right _ _),
    List.take_left, List.drop_left]

/-- Claim C7: in every metadata record and every bulk-dump file block, the
declared decimal byte length exactly equals the number of raw payload bytes
written immediately after it: a streaming consumer reading the declared number
of bytes recovers exactly the original payload and leaves the rest of the
stream intact, for arbitrary binary content including embedded newlines and
delimiter-like substrings; the description part of `__dump_metadata` and the
content part of `__dump` are exactly such length-prefixed payloads. -/
theorem c7_declared_length_exact :
    (∀ s rest : Bytes, read_length_prefixed (length_prefixed s ++ rest) = some (s, rest)) ∧
      (∀ c : CommitMeta,
        dump_metadata c = metadata_header c ++ length_prefixed c.description) ∧
      (∀ f : DumpFile, dump_file_entry f = file_entry_header f ++ length_prefixed f.content) := by
  refine ⟨read_length_prefixed_roundtrip, ?_, ?_⟩
  · intro c
    unfold dump_metadata length_prefixed metadata_header
    simp [List.append_assoc]
  · intro f
    unfold dump_file_entry length_prefixed file_entry_header
    simp [List.append_assoc]

theorem foldl_append_eq_flatten_map {α : Type} (g : α → Bytes) (L : List α) (init : Bytes) :
    L.foldl (fun out x => out ++ g x) init = init ++ (L.map g).flatten := by
  induction L generalizing init with
  | nil => simp
  | cons x L ih => simp [ih, List.append_assoc]

/-- Claim C10: every bulk-dump record declares its three path counts in the
order modified, added, removed, while the per-file payload blocks that follow
list all added files before all modified files (the loop runs over
`added + modified`, neither merged nor sorted), followed by the bare removed
paths. -/
theorem c10_dump_payload_order (c : DumpChangeset) :
    dump_record c =
      dump_metadata c.meta ++
        (writeln (nat_to_str c.modified.length) ++ writeln (nat_to_str c.added.length) ++
          writeln (nat_to_str c.removed.length)) ++
        ((c.added.map dump_file_entry).flatten ++ (c.modified.map dump_file_entry).flatten) ++
        (c.removed.map writeln).flatten := by
  unfold dump_record
  rw [foldl_append_eq_flatten_map, foldl_append_eq_flatten_map]
  simp [List.map_append, List.flatten_append, List.append_assoc]

end Skara
